import Mathlib

/-!
Verification development for the conv-wd crate: a scoped directory
lifecycle manager. We embed the path resolution algorithm
(closest_ancestor), the scoped path value (base path plus pending
subdirectory names), its modifiers (make_persistent, add_subdir, remove)
and the directory facade (constructors and file writers) as pure Lean
functions over an explicit file system model, and prove the specified
properties about them.

Modelling conventions:
- A file system path (RPath) is an absoluteness flag plus a list of
  components; a component is a normal name or the parent-dir marker.
  This mirrors the component view of std::path::Path. Subdirectory name
  strings recorded by the crate are modelled as single normal
  components, which is how the crate produces them (via file_name).
- The file system is a finite association list from paths to entries
  (file or directory). Existence checks are lookups; remove_dir
  succeeds exactly on a listed, childless directory, mirroring
  std::fs::remove_dir which only removes empty directories.
- Functions that in Rust query the live file system take the file
  system (or an existence oracle) as an explicit argument; functions
  that mutate it return the updated file system.
-/

namespace ConvWd

/-- One component of a file system path: a normal name, or the
parent-directory marker that Rust renders as dot-dot. -/
inductive Component where
  | normal (name : String)
  | parentDir
deriving DecidableEq

/-- A file system path: mirrors the component view of std::path::Path.
The absolute flag models a leading root component. -/
structure RPath where
  absolute : Bool
  comps : List Component
deriving DecidableEq

/-- The empty path, as produced by PathBuf::new(). -/
def RPath.empty : RPath := ⟨false, []⟩

/-- Rust Path::parent: drops the final component; none when the path
has no components (the empty path or a bare root). -/
def RPath.parent (p : RPath) : Option RPath :=
  if p.comps = [] then none else some ⟨p.absolute, p.comps.dropLast⟩

/-- Rust Path::file_name: the final component when it is a normal name;
none for the empty path, a bare root, or a path ending in dot-dot. -/
def RPath.fileName (p : RPath) : Option String :=
  match p.comps.getLast? with
  | some (Component.normal s) => some s
  | _ => none

/-- Rust PathBuf::push with a single normal name (the form of all
subdirectory names recorded by the crate). -/
def RPath.push (p : RPath) (s : String) : RPath :=
  ⟨p.absolute, p.comps ++ [Component.normal s]⟩

/-- Rust Path::join with a general path: an absolute argument replaces
the receiver, otherwise the components are appended. -/
def RPath.join (p q : RPath) : RPath :=
  if q.absolute then q else ⟨p.absolute, p.comps ++ q.comps⟩

/-- Joining a list of subdirectory names one by one, shallowest first.
This is the loop in Path::to_path_buf. -/
def RPath.joinSegs (p : RPath) (segs : List String) : RPath :=
  segs.foldl RPath.push p

/-- The error taxonomy of the crate (src/error.rs). -/
inductive Error where
  | pathIsNotADirectory (p : RPath)
  | pathDoesNotExist (p : RPath)
  | pathIsAbsolute (p : RPath)
  | malformedPath (p : RPath)
  | ioError (msg : String)
  | directoryCreationError (p : RPath)
  | jsonError (msg : String)
  | tomlError (msg : String)
deriving DecidableEq

deriving instance DecidableEq for Except

/-- The resolution algorithm closest_ancestor from
src/util/path_helpers.rs, with the live existence check abstracted as
the oracle fs. Returns the closest existing ancestor (empty when no
ancestor exists) and the missing trailing segment names, shallowest
first. -/
def closest_ancestor (fs : RPath → Bool) (p : RPath) :
    Except Error (RPath × List String) :=
  if fs p then Except.ok (p, [])
  else
    match hp : p.parent with
    | none => Except.ok (RPath.empty, [])
    | some parent =>
      match p.fileName with
      | none => Except.error (Error.malformedPath p)
      | some name =>
        match closest_ancestor fs parent with
        | Except.ok (ancestor, subdirs) => Except.ok (ancestor, subdirs ++ [name])
        | Except.error e => Except.error e
termination_by p.comps.length
decreasing_by
  simp only [RPath.parent] at hp
  split at hp
  · exact absurd hp (by simp)
  · next hne =>
    cases hp
    have := List.length_pos.mpr hne
    simp only [List.length_dropLast]
    omega

/-- Fuel-bounded restatement of closest_ancestor with structural
recursion; used to bound the recursion depth of the resolver. -/
def closest_ancestorFuel (fs : RPath → Bool) :
    Nat → RPath → Option (Except Error (RPath × List String))
  | 0, _ => none
  | fuel + 1, p =>
    if fs p then some (Except.ok (p, []))
    else
      match p.parent with
      | none => some (Except.ok (RPath.empty, []))
      | some parent =>
        match p.fileName with
        | none => some (Except.error (Error.malformedPath p))
        | some name =>
          match closest_ancestorFuel fs fuel parent with
          | some (Except.ok (ancestor, subdirs)) =>
              some (Except.ok (ancestor, subdirs ++ [name]))
          | some (Except.error e) => some (Except.error e)
          | none => none

theorem RPath.parent_comps_length {p q : RPath} (h : p.parent = some q) :
    q.comps.length + 1 = p.comps.length := by
  simp only [RPath.parent] at h
  split at h
  · exact absurd h (by simp)
  · next hne =>
    cases h
    have := List.length_pos.mpr hne
    simp only [List.length_dropLast]
    omega

/-- With fuel exceeding the component count, the fuelled resolver
computes exactly the recursive one. -/
theorem closest_ancestorFuel_eq (fs : RPath → Bool) :
    ∀ (fuel : Nat) (p : RPath), p.comps.length < fuel →
      closest_ancestorFuel fs fuel p = some (closest_ancestor fs p) := by
  intro fuel
  induction fuel with
  | zero => intro p h; omega
  | succ n ih =>
    intro p h
    rw [closest_ancestor]
    simp only [closest_ancestorFuel]
    by_cases hfs : fs p
    · simp [hfs]
    · simp only [hfs, if_false, Bool.false_eq_true]
      cases hp : p.parent with
      | none => rfl
      | some parent =>
        have hlen := RPath.parent_comps_length hp
        have hplt : parent.comps.length < n := by omega
        cases hfn : p.fileName with
        | none => rfl
        | some name =>
          dsimp only
          rw [ih parent hplt]
          cases closest_ancestor fs parent with
          | ok r => cases r; rfl
          | error e => rfl

theorem RPath.joinSegs_nil (p : RPath) : p.joinSegs [] = p := rfl

theorem RPath.joinSegs_cons (p : RPath) (s : String) (rest : List String) :
    p.joinSegs (s :: rest) = (p.push s).joinSegs rest := rfl

theorem RPath.joinSegs_append (p : RPath) (s1 s2 : List String) :
    p.joinSegs (s1 ++ s2) = (p.joinSegs s1).joinSegs s2 :=
  List.foldl_append ..

theorem RPath.joinSegs_absolute (p : RPath) (segs : List String) :
    (p.joinSegs segs).absolute = p.absolute := by
  induction segs generalizing p with
  | nil => rfl
  | cons s rest ih => rw [joinSegs_cons, ih]; rfl

theorem RPath.joinSegs_comps (p : RPath) (segs : List String) :
    (p.joinSegs segs).comps = p.comps ++ segs.map Component.normal := by
  induction segs generalizing p with
  | nil => simp [joinSegs_nil]
  | cons s rest ih => rw [joinSegs_cons, ih]; simp [RPath.push]

/-- A path is recovered by pushing its file name onto its parent. -/
theorem RPath.push_parent_fileName {p par : RPath} {name : String}
    (hp : p.parent = some par) (hf : p.fileName = some name) :
    par.push name = p := by
  simp only [RPath.parent] at hp
  split at hp
  · exact absurd hp (by simp)
  · next hne =>
    cases hp
    simp only [RPath.fileName] at hf
    split at hf
    · next heq =>
      cases hf
      have hlast : p.comps.getLast hne = Component.normal name := by
        have h2 := List.getLast?_eq_getLast p.comps hne
        rw [heq] at h2
        exact (Option.some.inj h2).symm
      have hd := List.dropLast_append_getLast hne
      rw [hlast] at hd
      show RPath.mk p.absolute (p.comps.dropLast ++ [Component.normal name]) = p
      rw [hd]
    · exact absurd hf (by simp)

/-- Central correctness of the resolver: when it returns a nonempty
ancestor, that ancestor exists, joining the returned segments onto it
reconstructs the input exactly, the segment count is the depth
difference, and every strictly deeper prefix along the chain was
missing. -/
theorem closest_ancestor_ok_spec (fs : RPath → Bool) :
    ∀ (n : Nat) (p anc : RPath) (segs : List String), p.comps.length ≤ n →
      closest_ancestor fs p = Except.ok (anc, segs) → anc ≠ RPath.empty →
      fs anc = true ∧
      RPath.joinSegs anc segs = p ∧
      anc.comps.length + segs.length = p.comps.length ∧
      ∀ k, k < segs.length → fs (RPath.joinSegs anc (segs.take (k + 1))) = false := by
  intro n
  induction n with
  | zero =>
    intro p anc segs hlen h hne
    rw [closest_ancestor] at h
    by_cases hfs : fs p
    · rw [if_pos hfs] at h
      cases h
      exact ⟨hfs, rfl, by simp, by intro k hk; simp at hk⟩
    · rw [if_neg hfs] at h
      split at h
      · cases h; exact absurd rfl hne
      · next parent heq =>
        exfalso
        have := RPath.parent_comps_length heq
        omega
  | succ m ih =>
    intro p anc segs hlen h hne
    rw [closest_ancestor] at h
    by_cases hfs : fs p
    · rw [if_pos hfs] at h
      cases h
      exact ⟨hfs, rfl, by simp, by intro k hk; simp at hk⟩
    · rw [if_neg hfs] at h
      split at h
      · cases h; exact absurd rfl hne
      · next parent heq =>
        split at h
        · exact absurd h (by simp)
        · next name hfn =>
          revert h
          cases hca : closest_ancestor fs parent with
          | error e => intro h; exact absurd h (by simp)
          | ok pr =>
            obtain ⟨ancestor, subdirs⟩ := pr
            intro h
            simp only [Except.ok.injEq, Prod.mk.injEq] at h
            obtain ⟨ha, hs⟩ := h
            subst ha hs
            have hplen := RPath.parent_comps_length heq
            have hrec := ih parent ancestor subdirs (by omega) hca hne
            obtain ⟨hfsanc, hjoin, hcount, hmiss⟩ := hrec
            have hpush : RPath.push (RPath.joinSegs ancestor subdirs) name = p := by
              rw [hjoin]; exact RPath.push_parent_fileName heq hfn
            refine ⟨hfsanc, ?_, ?_, ?_⟩
            · rw [RPath.joinSegs_append]
              simpa [RPath.joinSegs_cons, RPath.joinSegs_nil] using hpush
            · simp only [List.length_append, List.length_cons, List.length_nil]
              omega
            · intro k hk
              simp only [List.length_append, List.length_cons, List.length_nil] at hk
              by_cases hks : k < subdirs.length
              · rw [List.take_append_of_le_length (by omega)]
                exact hmiss k hks
              · have hkeq : k = subdirs.length := by omega
                have htake : (subdirs ++ [name]).take (k + 1) = subdirs ++ [name] := by
                  apply List.take_of_length_le
                  simp [hkeq]
                rw [htake, RPath.joinSegs_append]
                have : RPath.joinSegs (RPath.joinSegs ancestor subdirs) [name] = p := by
                  simpa [RPath.joinSegs_cons, RPath.joinSegs_nil] using hpush
                rw [this]
                simpa using hfs

/-- Claim C1, amended: for every resolution that returns a nonempty
ancestor, that ancestor exists, the missing trailing segments are
ordered shallowest first with exactly the depth-difference count, every
strictly deeper chain prefix was missing, and joining the segments onto
the ancestor reconstructs the input exactly; moreover if the input
itself exists the result is the input with no segments. -/
theorem c1_resolution_correctness (fs : RPath → Bool) (p : RPath) :
    (fs p = true → closest_ancestor fs p = Except.ok (p, [])) ∧
    (∀ (anc : RPath) (segs : List String),
      closest_ancestor fs p = Except.ok (anc, segs) → anc ≠ RPath.empty →
      fs anc = true ∧
      RPath.joinSegs anc segs = p ∧
      anc.comps.length + segs.length = p.comps.length ∧
      ∀ k, k < segs.length → fs (RPath.joinSegs anc (segs.take (k + 1))) = false) := by
  constructor
  · intro hfs
    rw [closest_ancestor, if_pos hfs]
  · intro anc segs h hne
    exact closest_ancestor_ok_spec fs p.comps.length p anc segs (Nat.le_refl _) h hne

/-- Existence oracle for the concrete resolution scenario: only the
paths root and root/a exist. -/
def fsScene : RPath → Bool := fun q =>
  decide (q = ⟨false, [Component.normal "root"]⟩ ∨
          q = ⟨false, [Component.normal "root", Component.normal "a"]⟩)

/-- The existing ancestor root/a in the concrete scenario. -/
def pRootA : RPath := ⟨false, [Component.normal "root", Component.normal "a"]⟩

/-- The requested target root/a/b/c in the concrete scenario. -/
def pTargetABC : RPath :=
  ⟨false, [Component.normal "root", Component.normal "a",
           Component.normal "b", Component.normal "c"]⟩

theorem c1_resolution_correctness_witness :
    closest_ancestor fsScene pRootA = Except.ok (pRootA, []) ∧
    fsScene pRootA = true ∧
    RPath.joinSegs pRootA ["b", "c"] = pTargetABC ∧
    pRootA.comps.length + ["b", "c"].length = pTargetABC.comps.length ∧
    ∀ k, k < ["b", "c"].length →
      fsScene (RPath.joinSegs pRootA (["b", "c"].take (k + 1))) = false := by
  have hres : closest_ancestor fsScene pTargetABC = Except.ok (pRootA, ["b", "c"]) := by
    have h1 := closest_ancestorFuel_eq fsScene 5 pTargetABC (by decide)
    have h2 : closest_ancestorFuel fsScene 5 pTargetABC =
        some (Except.ok (pRootA, ["b", "c"])) := by decide
    exact Option.some.inj (h1.symm.trans h2)
  exact ⟨(c1_resolution_correctness fsScene pRootA).1 (by decide),
    (c1_resolution_correctness fsScene pTargetABC).2 pRootA ["b", "c"] hres (by decide)⟩

/-- Existence oracle under which no path at all exists. -/
def fsBare : RPath → Bool := fun _ => false

/-- Counterexample to claim C1 as stated: for the absolute path /a with
no existing ancestor, resolution succeeds with the empty ancestor, but
joining the returned segments onto the returned ancestor yields the
relative path a, not the input /a; the returned ancestor also does not
exist. -/
theorem c1_counterexample :
    closest_ancestor fsBare ⟨true, [Component.normal "a"]⟩ =
      Except.ok (RPath.empty, ["a"]) ∧
    RPath.joinSegs RPath.empty ["a"] ≠ (⟨true, [Component.normal "a"]⟩ : RPath) ∧
    fsBare RPath.empty = false := by
  refine ⟨?_, by decide, rfl⟩
  have h1 := closest_ancestorFuel_eq fsBare 2 ⟨true, [Component.normal "a"]⟩ (by decide)
  have h2 : closest_ancestorFuel fsBare 2 ⟨true, [Component.normal "a"]⟩ =
      some (Except.ok (RPath.empty, ["a"])) := by decide
  exact Option.some.inj (h1.symm.trans h2)

/-- Claim C5, amended: for a non-existing input whose parent() is none,
resolution does not fail with MalformedPath; it succeeds and returns
the empty ancestor with no segments. -/
theorem c5_parent_none_resolves (fs : RPath → Bool) (p : RPath)
    (hex : fs p = false) (hpar : p.parent = none) :
    closest_ancestor fs p = Except.ok (RPath.empty, []) := by
  rw [closest_ancestor, if_neg (by simp [hex])]
  split
  · rfl
  · next parent heq => rw [hpar] at heq; cases heq

/-- The bare root path, an input with no name whose parent() is none. -/
def pBareRoot : RPath := ⟨true, []⟩

theorem c5_parent_none_resolves_witness :
    fsBare pBareRoot = false ∧ RPath.parent pBareRoot = none ∧
    closest_ancestor fsBare pBareRoot = Except.ok (RPath.empty, []) :=
  ⟨rfl, by decide, c5_parent_none_resolves fsBare pBareRoot rfl (by decide)⟩

/-- Counterexample to claim C5 as stated: the bare root path does not
exist under this oracle and has no parent, yet resolution returns ok
with the empty ancestor instead of the MalformedPath error. -/
theorem c5_counterexample :
    closest_ancestor fsBare pBareRoot = Except.ok (RPath.empty, []) ∧
    closest_ancestor fsBare pBareRoot ≠
      Except.error (Error.malformedPath pBareRoot) := by
  have h : closest_ancestor fsBare pBareRoot = Except.ok (RPath.empty, []) := by
    have h1 := closest_ancestorFuel_eq fsBare 1 pBareRoot (by decide)
    have h2 : closest_ancestorFuel fsBare 1 pBareRoot =
        some (Except.ok (RPath.empty, [])) := by decide
    exact Option.some.inj (h1.symm.trans h2)
  exact ⟨h, by rw [h]; intro hc; cases hc⟩

/-- Claim C8: a non-existing path with components whose last component
is the parent-dir marker has a parent but no file name, so resolution
fails with MalformedPath. -/
theorem c8_trailing_parentdir_malformed (fs : RPath → Bool) (p : RPath)
    (hex : fs p = false) (hne : p.comps ≠ [])
    (hlast : p.comps.getLast? = some Component.parentDir) :
    closest_ancestor fs p = Except.error (Error.malformedPath p) := by
  rw [closest_ancestor, if_neg (by simp [hex])]
  split
  · next heq =>
    simp only [RPath.parent] at heq
    rw [if_neg hne] at heq
    cases heq
  · next parent heq =>
    have hfn : p.fileName = none := by
      simp [RPath.fileName, hlast]
    split
    · rfl
    · next name heq2 => rw [hfn] at heq2; cases heq2

/-- The concrete malformed input root/a/.. -/
def pRootADotDot : RPath :=
  ⟨false, [Component.normal "root", Component.normal "a", Component.parentDir]⟩

theorem c8_trailing_parentdir_malformed_witness :
    fsBare pRootADotDot = false ∧
    pRootADotDot.comps.getLast? = some Component.parentDir ∧
    closest_ancestor fsBare pRootADotDot =
      Except.error (Error.malformedPath pRootADotDot) :=
  ⟨rfl, by decide,
    c8_trailing_parentdir_malformed fsBare pRootADotDot rfl (by decide) (by decide)⟩

/-- Claim C9: the resolver terminates on every input, and the recursion
depth is bounded by the number of path components: running the
fuel-bounded restatement with components-plus-one fuel never exhausts
the fuel and computes exactly the recursive resolver. -/
theorem c9_resolution_terminates (fs : RPath → Bool) (p : RPath) :
    closest_ancestorFuel fs (p.comps.length + 1) p =
      some (closest_ancestor fs p) :=
  closest_ancestorFuel_eq fs (p.comps.length + 1) p (Nat.lt_succ_self _)

/-- The scoped path value from src/util/path/mod.rs: a base path that
is kept on drop, the subdirectory names recorded for removal, and the
optional resolution error. -/
structure Path where
  base_path : RPath
  subdirs : List String
  error : Option Error
deriving DecidableEq

/-- Path::to_path_buf: the base path with every recorded subdirectory
name pushed onto it in order. -/
def Path.to_path_buf (p : Path) : RPath :=
  RPath.joinSegs p.base_path p.subdirs

/-- Path::make_persistent: the full current path becomes the base and
the subdirectory record is cleared. -/
def Path.make_persistent (p : Path) : Path :=
  { p with base_path := p.to_path_buf, subdirs := [] }

/-- Path::add_subdir from src/util/path/modifiers.rs, with the live
existence check abstracted as fs: when the target (the full current
path joined with the new name) exists, the whole target becomes the
base and the subdirectory record is cleared; otherwise the name is
appended to the record. -/
def Path.add_subdir (fs : RPath → Bool) (p : Path) (subdir : String) : Path :=
  let target_path := p.to_path_buf.push subdir
  if fs target_path then { p with base_path := target_path, subdirs := [] }
  else { p with subdirs := p.subdirs ++ [subdir] }

/-- Claim C6: make_persistent is idempotent; one application already
sets the base to the fully joined current path and empties the
subdirectory record, and a second application changes nothing. -/
theorem c6_make_persistent_idempotent (p : Path) :
    p.make_persistent.base_path = p.to_path_buf ∧
    p.make_persistent.subdirs = [] ∧
    p.make_persistent.make_persistent = p.make_persistent :=
  ⟨rfl, rfl, rfl⟩

/-- Claim C3: add_subdir folds everything accumulated so far: when the
full current path joined with the new name exists, the base becomes
that full target and the pending record empties; otherwise the name is
appended and the base is unchanged. -/
theorem c3_add_subdir_fold (fs : RPath → Bool) (p : Path) (n : String) :
    (fs (p.to_path_buf.push n) = true →
      Path.add_subdir fs p n = ⟨p.to_path_buf.push n, [], p.error⟩) ∧
    (fs (p.to_path_buf.push n) = false →
      Path.add_subdir fs p n = ⟨p.base_path, p.subdirs ++ [n], p.error⟩) := by
  constructor
  · intro h
    simp [Path.add_subdir, h]
  · intro h
    simp [Path.add_subdir, h]

/-- A concrete scoped path with one pending subdirectory. -/
def pPending : Path := ⟨⟨false, [Component.normal "base"]⟩, ["s1"], none⟩

/-- Existence oracle under which every path exists. -/
def fsFull : RPath → Bool := fun _ => true

theorem c3_add_subdir_fold_witness :
    Path.add_subdir fsFull pPending "s2" =
      ⟨pPending.to_path_buf.push "s2", [], pPending.error⟩ ∧
    Path.add_subdir fsBare pPending "s2" =
      ⟨pPending.base_path, pPending.subdirs ++ ["s2"], pPending.error⟩ :=
  ⟨(c3_add_subdir_fold fsFull pPending "s2").1 rfl,
   (c3_add_subdir_fold fsBare pPending "s2").2 rfl⟩

/-- A file system entry: a regular file or a directory. -/
inductive Entry where
  | file
  | dir
deriving DecidableEq

/-- A finite model of the file system: an association list from paths
to entries. -/
abbrev FS := List (RPath × Entry)

/-- Lookup of the entry at a path; the first matching record wins. -/
def FS.lookup : FS → RPath → Option Entry
  | [], _ => none
  | (q, e) :: rest, p => if q = p then some e else FS.lookup rest p

/-- True when p is a strict syntactic ancestor of q. -/
def RPath.isAncestorOf (p q : RPath) : Bool :=
  p.absolute == q.absolute &&
    decide (p.comps.length < q.comps.length) &&
    decide (q.comps.take p.comps.length = p.comps)

/-- Whether any listed entry lies strictly below p, in other words
whether the directory at p is non-empty. -/
def FS.hasEntryBelow (fs : FS) (p : RPath) : Bool :=
  fs.any fun qe => p.isAncestorOf qe.1

/-- Removes every record at exactly the path p. -/
def FS.erase : FS → RPath → FS
  | [], _ => []
  | (q, e) :: rest, p =>
    if q = p then FS.erase rest p else (q, e) :: FS.erase rest p

/-- std::fs::remove_dir: succeeds exactly on a listed, empty directory,
deleting it; fails on files, missing paths and non-empty directories. -/
def remove_dir (fs : FS) (p : RPath) : Option FS :=
  match fs.lookup p with
  | some Entry.dir => if fs.hasEntryBelow p then none else some (fs.erase p)
  | _ => none

/-- Path::remove from src/util/path/modifiers.rs: while subdirectory
names remain and removing the full current path as a directory
succeeds, pop the deepest name; the first failure stops the loop.
Returns the updated file system and the updated path value. -/
def Path.remove (fs : FS) (p : Path) : FS × Path :=
  if p.subdirs = [] then (fs, p)
  else
    match remove_dir fs p.to_path_buf with
    | none => (fs, p)
    | some fs1 => Path.remove fs1 { p with subdirs := p.subdirs.dropLast }
termination_by p.subdirs.length
decreasing_by
  next hne =>
    have := List.length_pos.mpr hne
    simp only [List.length_dropLast]
    omega

/-- Fuel-bounded restatement of the removal loop with structural
recursion, used to evaluate it on concrete inputs. -/
def Path.removeFuel : Nat → FS → Path → Option (FS × Path)
  | 0, _, _ => none
  | fuel + 1, fs, p =>
    if p.subdirs = [] then some (fs, p)
    else
      match remove_dir fs p.to_path_buf with
      | none => some (fs, p)
      | some fs1 => Path.removeFuel fuel fs1 { p with subdirs := p.subdirs.dropLast }

theorem Path.removeFuel_eq :
    ∀ (fuel : Nat) (fs : FS) (p : Path), p.subdirs.length < fuel →
      Path.removeFuel fuel fs p = some (Path.remove fs p) := by
  intro fuel
  induction fuel with
  | zero => intro fs p h; omega
  | succ m ih =>
    intro fs p h
    rw [Path.remove]
    simp only [Path.removeFuel]
    by_cases hs : p.subdirs = []
    · simp [hs]
    · rw [if_neg hs, if_neg hs]
      cases remove_dir fs p.to_path_buf with
      | none => rfl
      | some fs1 =>
        have hlt : p.subdirs.dropLast.length < m := by
          have := List.length_pos.mpr hs
          simp only [List.length_dropLast]
          omega
        exact ih fs1 { p with subdirs := p.subdirs.dropLast } hlt

/-- The chain of paths visited by the removal loop: the base joined
with the first i recorded subdirectory names. -/
def Path.chain (p : Path) (i : Nat) : RPath :=
  RPath.joinSegs p.base_path (p.subdirs.take i)

theorem Path.chain_comps_length (p : Path) (i : Nat) (h : i ≤ p.subdirs.length) :
    (p.chain i).comps.length = p.base_path.comps.length + i := by
  simp [Path.chain, RPath.joinSegs_comps, List.length_take, Nat.min_eq_left h]

theorem Path.chain_full (p : Path) : p.chain p.subdirs.length = p.to_path_buf := by
  simp [Path.chain, Path.to_path_buf, List.take_length]

theorem Path.chain_dropLast (p : Path) (i : Nat) (h : i ≤ p.subdirs.length - 1) :
    Path.chain { p with subdirs := p.subdirs.dropLast } i = p.chain i := by
  simp only [Path.chain, List.dropLast_eq_take, List.take_take]
  rw [Nat.min_eq_left h]

theorem FS.lookup_erase (fs : FS) (p q : RPath) :
    (fs.erase p).lookup q = if q = p then none else fs.lookup q := by
  induction fs with
  | nil => simp [FS.erase, FS.lookup]
  | cons qe rest ih =>
    obtain ⟨r, e⟩ := qe
    simp only [FS.erase]
    by_cases hrp : r = p
    · rw [if_pos hrp, ih]
      by_cases hqp : q = p
      · simp [hqp]
      · rw [if_neg hqp]
        have hrq : ¬r = q := by
          rw [hrp]; exact fun hc => hqp hc.symm
        simp only [FS.lookup]
        rw [if_neg hrq, if_neg hqp]
    · rw [if_neg hrp]
      simp only [FS.lookup]
      by_cases hrq : r = q
      · rw [if_pos hrq, if_pos hrq]
        have hqp : ¬q = p := by
          rw [← hrq]; exact hrp
        rw [if_neg hqp]
      · rw [if_neg hrq, if_neg hrq, ih]

theorem FS.erase_sublist (fs : FS) (p : RPath) :
    List.Sublist (fs.erase p) fs := by
  induction fs with
  | nil => simp [FS.erase]
  | cons qe rest ih =>
    obtain ⟨r, e⟩ := qe
    simp only [FS.erase]
    by_cases hrp : r = p
    · rw [if_pos hrp]
      exact ih.cons (r, e)
    · rw [if_neg hrp]
      exact ih.cons₂ (r, e)

theorem FS.hasEntryBelow_of_sublist {fs1 fs2 : FS} (h : List.Sublist fs1 fs2)
    (p : RPath) (hb : fs1.hasEntryBelow p = true) : fs2.hasEntryBelow p = true := by
  simp only [FS.hasEntryBelow, List.any_eq_true] at hb ⊢
  obtain ⟨qe, hmem, hanc⟩ := hb
  exact ⟨qe, h.subset hmem, hanc⟩

theorem Path.remove_sublist :
    ∀ (n : Nat) (fs : FS) (p : Path), p.subdirs.length ≤ n →
      List.Sublist (Path.remove fs p).1 fs := by
  intro n
  induction n with
  | zero =>
    intro fs p h
    have hs : p.subdirs = [] := List.eq_nil_of_length_eq_zero (by omega)
    rw [Path.remove, if_pos hs]
  | succ m ih =>
    intro fs p h
    rw [Path.remove]
    by_cases hs : p.subdirs = []
    · rw [if_pos hs]
    · rw [if_neg hs]
      cases hrd : remove_dir fs p.to_path_buf with
      | none => exact List.Sublist.refl fs
      | some fs1 =>
        have hf : fs1 = fs.erase p.to_path_buf := by
          simp only [remove_dir] at hrd
          split at hrd
          · split at hrd
            · cases hrd
            · exact (Option.some.inj hrd).symm
          · cases hrd
        have hlt : p.subdirs.dropLast.length ≤ m := by
          have := List.length_pos.mpr hs
          simp only [List.length_dropLast]
          omega
        exact (ih fs1 { p with subdirs := p.subdirs.dropLast } hlt).trans
          (hf ▸ FS.erase_sublist fs p.to_path_buf)

/-- Full behaviour of the removal loop: the base and error are
untouched, the remaining names are a prefix of the recorded ones, the
file system loses exactly the chain paths strictly deeper than the stop
index (each of which was a directory and has nothing left below it),
every other record is untouched, and the loop stopped either because
the list was exhausted or because the next removal fails. -/
theorem Path.remove_spec_aux :
    ∀ (n : Nat) (fs : FS) (p : Path), p.subdirs.length ≤ n →
      (Path.remove fs p).2.base_path = p.base_path ∧
      (Path.remove fs p).2.error = p.error ∧
      ∃ k, k ≤ p.subdirs.length ∧
        (Path.remove fs p).2.subdirs = p.subdirs.take k ∧
        (∀ q : RPath, (∀ i, k < i → i ≤ p.subdirs.length → q ≠ p.chain i) →
          (Path.remove fs p).1.lookup q = fs.lookup q) ∧
        (∀ i, k < i → i ≤ p.subdirs.length →
          fs.lookup (p.chain i) = some Entry.dir ∧
          (Path.remove fs p).1.lookup (p.chain i) = none ∧
          (Path.remove fs p).1.hasEntryBelow (p.chain i) = false) ∧
        (k = 0 ∨ remove_dir (Path.remove fs p).1 (p.chain k) = none) := by
  intro n
  induction n with
  | zero =>
    intro fs p hn
    have hs : p.subdirs = [] := List.eq_nil_of_length_eq_zero (by omega)
    rw [Path.remove, if_pos hs]
    refine ⟨rfl, rfl, 0, by omega, by simp [hs], fun q _ => rfl, ?_, Or.inl rfl⟩
    intro i h0 hle
    rw [hs] at hle
    simp only [List.length_nil] at hle
    omega
  | succ m ih =>
    intro fs p hn
    by_cases hs : p.subdirs = []
    · rw [Path.remove, if_pos hs]
      refine ⟨rfl, rfl, 0, by omega, by simp [hs], fun q _ => rfl, ?_, Or.inl rfl⟩
      intro i h0 hle
      rw [hs] at hle
      simp only [List.length_nil] at hle
      omega
    · rw [Path.remove, if_neg hs]
      have hlen1 : 1 ≤ p.subdirs.length := List.length_pos.mpr hs
      cases hrd : remove_dir fs p.to_path_buf with
      | none =>
        refine ⟨rfl, rfl, p.subdirs.length, Nat.le_refl _,
          by simp [List.take_length], fun q _ => rfl, ?_, Or.inr ?_⟩
        · intro i h1 h2
          omega
        · rw [Path.chain_full]
          exact hrd
      | some fs1 =>
        dsimp only
        have hfacts : fs1 = fs.erase p.to_path_buf ∧
            fs.lookup p.to_path_buf = some Entry.dir ∧
            fs.hasEntryBelow p.to_path_buf = false := by
          simp only [remove_dir] at hrd
          split at hrd
          · next heq =>
            split at hrd
            · cases hrd
            · next hbe =>
              exact ⟨(Option.some.inj hrd).symm, heq, by simpa using hbe⟩
          · cases hrd
        obtain ⟨hf1, hlk, hbe⟩ := hfacts
        set p2 : Path := { p with subdirs := p.subdirs.dropLast } with hp2
        have hdl : p2.subdirs.length = p.subdirs.length - 1 := by
          rw [hp2]
          simp [List.length_dropLast]
        have hrec := ih fs1 p2 (by omega)
        obtain ⟨hb, he, k, hk, hsub, hunt, hrem, hstop⟩ := hrec
        have hklen : k ≤ p.subdirs.length - 1 := by omega
        have hchain : ∀ i, i ≤ p.subdirs.length - 1 → p2.chain i = p.chain i := by
          intro i hi
          rw [hp2]
          exact Path.chain_dropLast p i hi
        have hchain_len : ∀ i, i ≤ p.subdirs.length →
            (p.chain i).comps.length = p.base_path.comps.length + i :=
          fun i hi => Path.chain_comps_length p i hi
        have hsubl2 : List.Sublist (Path.remove fs1 p2).1 fs :=
          (Path.remove_sublist m fs1 p2 (by omega)).trans
            (hf1 ▸ FS.erase_sublist fs p.to_path_buf)
        refine ⟨hb, he, k, by omega, ?_, ?_, ?_, ?_⟩
        · rw [hsub, hp2]
          show p.subdirs.dropLast.take k = p.subdirs.take k
          rw [List.dropLast_eq_take, List.take_take, Nat.min_eq_left hklen]
        · intro q hq
          have hqtp : q ≠ p.to_path_buf := by
            have := hq p.subdirs.length (by omega) (Nat.le_refl _)
            rwa [Path.chain_full] at this
          have hside : ∀ i, k < i → i ≤ p2.subdirs.length → q ≠ p2.chain i := by
            intro i h1 h2
            rw [hdl] at h2
            rw [hchain i h2]
            exact hq i h1 (by omega)
          rw [hunt q hside, hf1, FS.lookup_erase, if_neg hqtp]
        · intro i h1 h2
          by_cases hi : i ≤ p.subdirs.length - 1
          · have hr := hrem i h1 (by omega)
            rw [hchain i hi] at hr
            obtain ⟨hr1, hr2, hr3⟩ := hr
            have hitp : p.chain i ≠ p.to_path_buf := by
              intro hc
              have hci := hchain_len i h2
              rw [← Path.chain_full] at hc
              have hcn := hchain_len p.subdirs.length (Nat.le_refl _)
              rw [hc, hcn] at hci
              omega
            refine ⟨?_, hr2, hr3⟩
            rw [hf1, FS.lookup_erase, if_neg hitp] at hr1
            exact hr1
          · have hieq : i = p.subdirs.length := by omega
            subst hieq
            rw [Path.chain_full]
            refine ⟨hlk, ?_, ?_⟩
            · have hside : ∀ j, k < j → j ≤ p2.subdirs.length →
                  p.to_path_buf ≠ p2.chain j := by
                intro j hj1 hj2
                rw [hdl] at hj2
                rw [hchain j hj2]
                intro hc
                have hcj := hchain_len j (by omega)
                have hcn := hchain_len p.subdirs.length (Nat.le_refl _)
                rw [← hc, ← Path.chain_full, hcn] at hcj
                omega
              rw [hunt p.to_path_buf hside, hf1, FS.lookup_erase, if_pos rfl]
            · cases hres2 : (Path.remove fs1 p2).1.hasEntryBelow p.to_path_buf with
              | false => rfl
              | true =>
                have := FS.hasEntryBelow_of_sublist hsubl2 p.to_path_buf hres2
                rw [hbe] at this
                cases this
        · cases hstop with
          | inl h0 => exact Or.inl h0
          | inr hnone =>
            refine Or.inr ?_
            by_cases hk0 : k = 0
            · rw [hk0]
              rw [hk0] at hnone
              have : p2.chain 0 = p.chain 0 := hchain 0 (by omega)
              rwa [this] at hnone
            · rwa [hchain k hklen] at hnone

/-- Claim C2: removal is strictly bottom-up and safe: the base path and
error are untouched, the surviving file system is a sublist of the
original, the record at the base path is untouched, no file anywhere is
removed, the remaining names are the shallowest-first prefix of the
recorded ones, only chain paths strictly deeper than the stop index are
removed (each verified to be a directory, with nothing surviving below
it), everything else is untouched, and the loop stopped either with the
list exhausted or at the first failing removal. -/
theorem c2_remove_safety (fs : FS) (p : Path) (fs2 : FS) (p2 : Path)
    (h : Path.remove fs p = (fs2, p2)) :
    p2.base_path = p.base_path ∧
    p2.error = p.error ∧
    List.Sublist fs2 fs ∧
    fs2.lookup p.base_path = fs.lookup p.base_path ∧
    (∀ q : RPath, fs.lookup q = some Entry.file →
      fs2.lookup q = some Entry.file) ∧
    ∃ k, k ≤ p.subdirs.length ∧
      p2.subdirs = p.subdirs.take k ∧
      (∀ q : RPath, (∀ i, k < i → i ≤ p.subdirs.length → q ≠ p.chain i) →
        fs2.lookup q = fs.lookup q) ∧
      (∀ i, k < i → i ≤ p.subdirs.length →
        fs.lookup (p.chain i) = some Entry.dir ∧
        fs2.lookup (p.chain i) = none ∧
        fs2.hasEntryBelow (p.chain i) = false) ∧
      (k = 0 ∨ remove_dir fs2 (p.chain k) = none) := by
  have haux := Path.remove_spec_aux p.subdirs.length fs p (Nat.le_refl _)
  rw [h] at haux
  obtain ⟨hb, he, k, hk, hsub, hunt, hrem, hstop⟩ := haux
  have hsubl : List.Sublist fs2 fs := by
    have := Path.remove_sublist p.subdirs.length fs p (Nat.le_refl _)
    rwa [h] at this
  refine ⟨hb, he, hsubl, ?_, ?_, k, hk, hsub, hunt, hrem, hstop⟩
  · apply hunt
    intro i h1 h2 hc
    have hlen := Path.chain_comps_length p i h2
    rw [← hc] at hlen
    omega
  · intro q hq
    have hside : ∀ i, k < i → i ≤ p.subdirs.length → q ≠ p.chain i := by
      intro i h1 h2 hc
      have hdir := (hrem i h1 h2).1
      rw [← hc, hq] at hdir
      simp at hdir
    rw [hunt q hside, hq]

/-- Concrete removal scenario, before: base exists, two recorded
subdirectories exist, and an unrelated file sits inside the first. -/
def fsRemoveIn : FS :=
  [(⟨false, [Component.normal "base"]⟩, Entry.dir),
   (⟨false, [Component.normal "base", Component.normal "s1"]⟩, Entry.dir),
   (⟨false, [Component.normal "base", Component.normal "s1",
             Component.normal "s2"]⟩, Entry.dir),
   (⟨false, [Component.normal "base", Component.normal "s1",
             Component.normal "keep.txt"]⟩, Entry.file)]

/-- The scoped path owning the two recorded subdirectories. -/
def pRemoveIn : Path := ⟨⟨false, [Component.normal "base"]⟩, ["s1", "s2"], none⟩

/-- Concrete removal scenario, after: only the empty deepest directory
is gone; the loop stopped at the non-empty first subdirectory. -/
def fsRemoveOut : FS :=
  [(⟨false, [Component.normal "base"]⟩, Entry.dir),
   (⟨false, [Component.normal "base", Component.normal "s1"]⟩, Entry.dir),
   (⟨false, [Component.normal "base", Component.normal "s1",
             Component.normal "keep.txt"]⟩, Entry.file)]

/-- The scoped path remaining after the stopped removal. -/
def pRemoveOut : Path := ⟨⟨false, [Component.normal "base"]⟩, ["s1"], none⟩

theorem c2_remove_safety_witness :
    pRemoveOut.base_path = pRemoveIn.base_path ∧
    pRemoveOut.error = pRemoveIn.error ∧
    List.Sublist fsRemoveOut fsRemoveIn ∧
    fsRemoveOut.lookup pRemoveIn.base_path =
      fsRemoveIn.lookup pRemoveIn.base_path := by
  have h : Path.remove fsRemoveIn pRemoveIn = (fsRemoveOut, pRemoveOut) := by
    have h1 := Path.removeFuel_eq 3 fsRemoveIn pRemoveIn (by decide)
    have h2 : Path.removeFuel 3 fsRemoveIn pRemoveIn =
        some (fsRemoveOut, pRemoveOut) := by decide
    exact Option.some.inj (h1.symm.trans h2)
  obtain ⟨hb, he, hsub, hbase, _⟩ :=
    c2_remove_safety fsRemoveIn pRemoveIn fsRemoveOut pRemoveOut h
  exact ⟨hb, he, hsub, hbase⟩

/-- The Directory value from src/directory/constructors.rs: a base
path kept on drop plus the created subdirectory names. -/
structure Directory where
  base_path : RPath
  subdirs : List String
deriving DecidableEq

/-- Directory::path: the base path joined with the recorded
subdirectory names. -/
def Directory.path (d : Directory) : RPath :=
  RPath.joinSegs d.base_path d.subdirs

/-- All ancestor prefixes of a path, shallowest first, including the
path itself. -/
def RPath.ancestorPaths (p : RPath) : List RPath :=
  (List.range (p.comps.length + 1)).map fun i => ⟨p.absolute, p.comps.take i⟩

/-- std::fs::create_dir_all, modelled atomically: fails when any
ancestor prefix (or the path itself) is currently a file, otherwise
inserts a directory record for every missing prefix. -/
def create_dir_all (fs : FS) (p : RPath) : Option FS :=
  if p.ancestorPaths.any (fun q => decide (fs.lookup q = some Entry.file)) then
    none
  else
    some (((p.ancestorPaths.filter
      (fun q => decide (fs.lookup q = none))).map (fun q => (q, Entry.dir))) ++ fs)

/-- Directory::ensure_exists: creates the full path when it is missing,
mapping creation failure to DirectoryCreationError. -/
def Directory.ensure_exists (fs : FS) (d : Directory) : Except Error FS :=
  match fs.lookup d.path with
  | some _ => Except.ok fs
  | none =>
    match create_dir_all fs d.path with
    | some fs1 => Except.ok fs1
    | none => Except.error (Error.directoryCreationError d.path)

/-- Directory::new_persistent: the whole path becomes the base with no
recorded subdirectories, then the path is created if missing. On error
the file system is returned unchanged (creation is modelled
atomically). -/
def Directory.new_persistent (fs : FS) (p : RPath) : FS × Except Error Directory :=
  let dir : Directory := ⟨p, []⟩
  match Directory.ensure_exists fs dir with
  | Except.ok fs1 => (fs1, Except.ok dir)
  | Except.error e => (fs, Except.error e)

/-- Directory::new_subdir from src/directory/constructors.rs: joins
the name onto the base path (the base path, not the full current
path), errors eagerly when the target exists as a non-directory, folds
into a persistent directory when the target is a directory, and
otherwise records the name and ensures the full path exists. -/
def Directory.new_subdir (fs : FS) (d : Directory) (subdir : String) :
    FS × Except Error Directory :=
  let target_path := d.base_path.push subdir
  match fs.lookup target_path with
  | some Entry.file => (fs, Except.error (Error.pathIsNotADirectory target_path))
  | some Entry.dir => Directory.new_persistent fs target_path
  | none =>
    let d1 : Directory := { d with subdirs := d.subdirs ++ [subdir] }
    match Directory.ensure_exists fs d1 with
    | Except.ok fs1 => (fs1, Except.ok d1)
    | Except.error e => (fs, Except.error e)

/-- Directory::new: eagerly rejects an existing non-directory, reuses
an existing directory persistently, and otherwise recurses on the
parent and adds the file name as a new subdirectory. -/
def Directory.new (fs : FS) (p : RPath) : FS × Except Error Directory :=
  match fs.lookup p with
  | some Entry.file => (fs, Except.error (Error.pathIsNotADirectory p))
  | some Entry.dir => Directory.new_persistent fs p
  | none =>
    match p.fileName with
    | none => (fs, Except.error (Error.malformedPath p))
    | some dirname =>
      match hp : p.parent with
      | none => (fs, Except.error (Error.malformedPath p))
      | some parent =>
        match Directory.new fs parent with
        | (fs1, Except.ok dir) => Directory.new_subdir fs1 dir dirname
        | (fs1, Except.error e) => (fs1, Except.error e)
termination_by p.comps.length
decreasing_by
  simp only [RPath.parent] at hp
  split at hp
  · exact absurd hp (by simp)
  · next hne =>
    cases hp
    have := List.length_pos.mpr hne
    simp only [List.length_dropLast]
    omega

/-- Claim C10: eager non-directory rejection at construction: when the
requested path exists as a file, Directory::new returns the
PathIsNotADirectory error for it at once with the file system
unchanged, and when the joined target of new_subdir exists as a file,
new_subdir likewise returns PathIsNotADirectory for the target with
the file system unchanged. -/
theorem c10_eager_nondir_rejection (fs : FS) (p : RPath) (d : Directory)
    (n : String) :
    (fs.lookup p = some Entry.file →
      Directory.new fs p = (fs, Except.error (Error.pathIsNotADirectory p))) ∧
    (fs.lookup (d.base_path.push n) = some Entry.file →
      Directory.new_subdir fs d n =
        (fs, Except.error (Error.pathIsNotADirectory (d.base_path.push n)))) := by
  constructor
  · intro h
    rw [Directory.new, h]
  · intro h
    simp only [Directory.new_subdir]
    rw [h]

/-- A file system consisting of a single file named occupied. -/
def fsOccupied : FS := [(⟨false, [Component.normal "occupied"]⟩, Entry.file)]

/-- The path of that single file. -/
def pOccupied : RPath := ⟨false, [Component.normal "occupied"]⟩

theorem c10_eager_nondir_rejection_witness :
    Directory.new fsOccupied pOccupied =
      (fsOccupied, Except.error (Error.pathIsNotADirectory pOccupied)) ∧
    Directory.new_subdir fsOccupied ⟨RPath.empty, []⟩ "occupied" =
      (fsOccupied, Except.error
        (Error.pathIsNotADirectory (RPath.empty.push "occupied"))) :=
  ⟨(c10_eager_nondir_rejection fsOccupied pOccupied ⟨RPath.empty, []⟩ "occupied").1
      (by decide),
   (c10_eager_nondir_rejection fsOccupied pOccupied ⟨RPath.empty, []⟩ "occupied").2
      (by decide)⟩

/-- Outcome of the panicking write methods in src/directory/files.rs:
normal return with the updated file system, or a Rust panic raised by
the assertion or by unwrap_or_else. -/
inductive WriteOutcome where
  | ok (fs : FS)
  | panicked (msg : String)
deriving DecidableEq

/-- The message of the failed assertion on an absolute path. -/
def assertAbsoluteMsg : String :=
  "assertion failed: relative_path is absolute"

/-- Directory::write_bytes: asserts the given path is relative,
panicking on an absolute one; otherwise writes at the directory path
joined with it, panicking when the underlying write fails. The
std::fs::write primitive is abstracted as write_prim. -/
def Directory.write_bytes
    (write_prim : RPath → List UInt8 → FS → Except String FS)
    (d : Directory) (relative_path : RPath) (content : List UInt8)
    (fs : FS) : WriteOutcome :=
  if relative_path.absolute then WriteOutcome.panicked assertAbsoluteMsg
  else
    match write_prim (d.path.join relative_path) content fs with
    | Except.ok fs1 => WriteOutcome.ok fs1
    | Except.error e => WriteOutcome.panicked e

/-- Directory::write_string: delegates to write_bytes on the UTF-8
bytes of the string. -/
def Directory.write_string
    (write_prim : RPath → List UInt8 → FS → Except String FS)
    (d : Directory) (relative_path : RPath) (content : String)
    (fs : FS) : WriteOutcome :=
  Directory.write_bytes write_prim d relative_path content.toUTF8.toList fs

/-- Claim C4, amended: write_bytes never returns a PathIsAbsolute
error value (its return type carries none): for every absolute input
it panics through the assertion, and for every relative input it
writes content at path().join(relative_path), propagating a successful
write and panicking, rather than surfacing IoError, when the
underlying write fails. -/
theorem c4_write_bytes_behaviour
    (write_prim : RPath → List UInt8 → FS → Except String FS)
    (d : Directory) (rp : RPath) (content : List UInt8) (fs : FS) :
    (rp.absolute = true →
      Directory.write_bytes write_prim d rp content fs =
        WriteOutcome.panicked assertAbsoluteMsg) ∧
    (rp.absolute = false →
      ∀ fs1 : FS, write_prim (d.path.join rp) content fs = Except.ok fs1 →
        Directory.write_bytes write_prim d rp content fs = WriteOutcome.ok fs1) ∧
    (rp.absolute = false →
      ∀ e : String, write_prim (d.path.join rp) content fs = Except.error e →
        Directory.write_bytes write_prim d rp content fs =
          WriteOutcome.panicked e) := by
  refine ⟨?_, ?_, ?_⟩
  · intro habs
    simp [Directory.write_bytes, habs]
  · intro habs fs1 hw
    simp [Directory.write_bytes, habs, hw]
  · intro habs e hw
    simp [Directory.write_bytes, habs, hw]

/-- A write primitive that always succeeds without changing anything. -/
def wpOk : RPath → List UInt8 → FS → Except String FS :=
  fun _ _ fs => Except.ok fs

/-- A write primitive that always fails with a fixed message. -/
def wpFail : RPath → List UInt8 → FS → Except String FS :=
  fun _ _ _ => Except.error "disk full"

/-- A directory value at the relative path out. -/
def dOut : Directory := ⟨⟨false, [Component.normal "out"]⟩, []⟩

/-- An absolute relative-path argument. -/
def pAbsArg : RPath := ⟨true, [Component.normal "abs"]⟩

/-- A relative relative-path argument. -/
def pRelArg : RPath := ⟨false, [Component.normal "file.txt"]⟩

theorem c4_write_bytes_behaviour_witness :
    Directory.write_bytes wpOk dOut pAbsArg [] [] =
      WriteOutcome.panicked assertAbsoluteMsg ∧
    Directory.write_bytes wpOk dOut pRelArg [] [] = WriteOutcome.ok [] ∧
    Directory.write_bytes wpFail dOut pRelArg [] [] =
      WriteOutcome.panicked "disk full" :=
  ⟨(c4_write_bytes_behaviour wpOk dOut pAbsArg [] []).1 rfl,
   (c4_write_bytes_behaviour wpOk dOut pRelArg [] []).2.1 rfl [] rfl,
   (c4_write_bytes_behaviour wpFail dOut pRelArg [] []).2.2 rfl "disk full" rfl⟩

/-- Counterexample to claim C4 as stated: on an absolute input,
write_bytes panics through the assertion; its result is a panic
outcome, not a returned PathIsAbsolute error (the method returns unit
in the source and its outcome type here carries no error variant). -/
theorem c4_counterexample :
    Directory.write_bytes wpOk dOut pAbsArg [] [] =
      WriteOutcome.panicked assertAbsoluteMsg := rfl

/-- Scan of the reversed characters of a file name for the extension
separator: returns the reversed stem when the name has an extension (a
dot that is not the leading character of the name), none otherwise.
This mirrors the splitting rule of Rust file_stem and extension. -/
def stemRev : List Char → Option (List Char)
  | [] => none
  | c :: rest =>
    if c = '.' then (if rest.isEmpty then none else some rest)
    else stemRev rest

/-- Rust Path::file_stem on a plain file name: the portion before the
last dot; the whole name when there is no dot or when the only dot
leads the name. -/
def fileStem (name : String) : String :=
  match stemRev name.data.reverse with
  | some r => String.mk r.reverse
  | none => name

/-- Rust Path::with_extension restricted to a plain file name: the
stem, then a dot and the new extension when it is nonempty. -/
def withExtensionName (name ext : String) : String :=
  if ext = "" then fileStem name else fileStem name ++ "." ++ ext

/-- Rust Path::with_extension on a path: replaces the extension of the
final normal component; a path without a file name is unchanged. -/
def RPath.with_extension (p : RPath) (ext : String) : RPath :=
  match p.comps.getLast? with
  | some (Component.normal name) =>
      ⟨p.absolute, p.comps.dropLast ++ [Component.normal (withExtensionName name ext)]⟩
  | _ => p

/-- Directory::write_json: forces the json extension onto the relative
path, then writes the serialized text via write_string; a failed
serialization panics with its message. The serializer is abstracted as
its result. -/
def Directory.write_json
    (write_prim : RPath → List UInt8 → FS → Except String FS)
    (d : Directory) (relative_path : RPath)
    (serialized : Except String String) (fs : FS) : WriteOutcome :=
  match serialized with
  | Except.error e => WriteOutcome.panicked e
  | Except.ok s =>
      Directory.write_string write_prim d (relative_path.with_extension "json") s fs

/-- Directory::write_toml: forces the toml extension onto the relative
path, then writes the serialized text via write_string; a failed
serialization panics with its message. -/
def Directory.write_toml
    (write_prim : RPath → List UInt8 → FS → Except String FS)
    (d : Directory) (relative_path : RPath)
    (serialized : Except String String) (fs : FS) : WriteOutcome :=
  match serialized with
  | Except.error e => WriteOutcome.panicked e
  | Except.ok s =>
      Directory.write_string write_prim d (relative_path.with_extension "toml") s fs

theorem stemRev_of_no_dot : ∀ (l : List Char), ('.' : Char) ∉ l → stemRev l = none := by
  intro l
  induction l with
  | nil => intro _; rfl
  | cons c rest ih =>
    intro hmem
    have hc : ¬c = '.' := fun hc => hmem (hc ▸ List.mem_cons_self c rest)
    rw [stemRev, if_neg hc]
    exact ih fun hr => hmem (List.mem_cons_of_mem c hr)

theorem stemRev_scan :
    ∀ (sfx rest : List Char), ('.' : Char) ∉ sfx →
      stemRev (sfx ++ '.' :: rest) =
        if rest.isEmpty then none else some rest := by
  intro sfx
  induction sfx with
  | nil =>
    intro rest _
    rw [List.nil_append, stemRev, if_pos rfl]
  | cons c sfxrest ih =>
    intro rest hmem
    have hc : ¬c = '.' := fun hc => hmem (hc ▸ List.mem_cons_self c sfxrest)
    rw [List.cons_append, stemRev, if_neg hc]
    exact ih rest fun hr => hmem (List.mem_cons_of_mem c hr)

theorem string_data_append (s t : String) : (s ++ t).data = s.data ++ t.data := by
  cases s
  cases t
  rfl

/-- Claim C7: the structured writers force the extension by replacing,
not appending: write_json and write_toml write at the with_extension
path; forcing json onto the names data and data.txt both yield
data.json; and in general, for a nonempty dot-free stem and a dot-free
old extension, the forced extension replaces the old one, and is
appended after a dot when the name has none. -/
theorem c7_forced_extension :
    (∀ (wp : RPath → List UInt8 → FS → Except String FS) (d : Directory)
        (rp : RPath) (s : String) (fs : FS),
      Directory.write_json wp d rp (Except.ok s) fs =
        Directory.write_string wp d (rp.with_extension "json") s fs) ∧
    (∀ (wp : RPath → List UInt8 → FS → Except String FS) (d : Directory)
        (rp : RPath) (s : String) (fs : FS),
      Directory.write_toml wp d rp (Except.ok s) fs =
        Directory.write_string wp d (rp.with_extension "toml") s fs) ∧
    RPath.with_extension ⟨false, [Component.normal "data"]⟩ "json" =
      ⟨false, [Component.normal "data.json"]⟩ ∧
    RPath.with_extension ⟨false, [Component.normal "data.txt"]⟩ "json" =
      ⟨false, [Component.normal "data.json"]⟩ ∧
    (∀ stem old ext : String, stem.data ≠ [] → ('.' : Char) ∉ stem.data →
      ('.' : Char) ∉ old.data → ext ≠ "" →
      withExtensionName (stem ++ "." ++ old) ext = stem ++ "." ++ ext ∧
      withExtensionName stem ext = stem ++ "." ++ ext) := by
  refine ⟨fun wp d rp s fs => rfl, fun wp d rp s fs => rfl, by decide, by decide, ?_⟩
  intro stem old ext hne hstem hold hext
  have hrevne : stem.data.reverse ≠ [] := by simpa using hne
  have hdata : (stem ++ "." ++ old).data = stem.data ++ '.' :: old.data := by
    rw [string_data_append, string_data_append]
    simp [List.append_assoc]
  have hrev : (stem ++ "." ++ old).data.reverse =
      old.data.reverse ++ '.' :: stem.data.reverse := by
    rw [hdata]
    simp
  have hstem_eq : fileStem (stem ++ "." ++ old) = stem := by
    simp only [fileStem]
    rw [hrev, stemRev_scan old.data.reverse stem.data.reverse
      (by simpa using hold)]
    rw [if_neg (by simp [hrevne])]
    show String.mk stem.data.reverse.reverse = stem
    rw [List.reverse_reverse]
  have hstem_eq2 : fileStem stem = stem := by
    simp only [fileStem]
    rw [stemRev_of_no_dot stem.data.reverse (by simpa using hstem)]
  constructor
  · simp only [withExtensionName]
    rw [if_neg hext, hstem_eq]
  · simp only [withExtensionName]
    rw [if_neg hext, hstem_eq2]

theorem c7_forced_extension_witness :
    withExtensionName ("ab" ++ "." ++ "txt") "json" = "ab" ++ "." ++ "json" ∧
    withExtensionName "ab" "json" = "ab" ++ "." ++ "json" :=
  c7_forced_extension.2.2.2.2 "ab" "txt" "json"
    (by decide) (by decide) (by decide) (by decide)

end ConvWd
